import Mathlib

/-!
Verification development for the parking-lot feature-engineering pipeline
(`data_processing/lot_engineering.py`).

The numeric columns of the pipeline are modelled over `ℚ` (the float
computations in the claims are exact: no rounding is involved at the
inputs the claims speak about), except where IEEE special values
(inf / -inf / NaN) are observable, which are modelled by the `FVal` type
below.  The geometry library (GeoPandas / shapely) is external to the
repository; geometric primitives (`area`, `.geoms` decomposition) are
modelled as parameters (`GeomOps`), and real-valued primitives
(`arctan2`, `degrees`, float `%`) are modelled over `ℝ`.
-/

namespace LotEngineering

/-! ### Gini coefficient (`gini_coefficient`)

Source:
```
x = np.array(x, dtype=np.float64)
if x.size <= 1 or np.sum(x) == 0:
    return 0.0
x = np.sort(x)
n = len(x)
index = np.arange(1, n + 1)
gini_coef = (np.sum((2 * index - n - 1) * x)) / (n * np.sum(x))
```
`np.sort` sorts ascending; `np.arange(1, n+1)` is `[1, …, n]`; the
products are elementwise, so the numerator is a `zipWith` over ranks and
sorted values. -/

def gini_coefficient (x : List ℚ) : ℚ :=
  if x.length ≤ 1 ∨ x.sum = 0 then 0
  else
    let s := List.insertionSort (· ≤ ·) x
    let n := s.length
    (List.zipWith (fun (i : ℕ) (v : ℚ) => (2 * (i : ℚ) - (n : ℚ) - 1) * v)
      (List.range' 1 n) s).sum / ((n : ℚ) * s.sum)

/-- The Inequality Calculator as the spec words it (§4.3): guard on
fewer than 2 elements or zero sum, else sort ascending, give each
element its 1-based rank and return
`Σ_i (2·rank_i − n − 1)·value_i / (n · Σ value_i)`.
Written independently of the source embedding (Multiset sort, Finset
sum over 0-based positions with rank `i+1`) for the refinement
comparison. -/
def giniSpec (x : List ℚ) : ℚ :=
  if x.length < 2 ∨ x.sum = 0 then 0
  else
    let s := Multiset.sort (· ≤ ·) (x : Multiset ℚ)
    let n := x.length
    (∑ i ∈ Finset.range n, (2 * ((i : ℚ) + 1) - (n : ℚ) - 1) * s.getD i 0)
      / ((n : ℚ) * x.sum)

/-! Helper lemmas relating the two sum shapes and the two sorts. -/

theorem zipWith_range'_sum (f : ℕ → ℚ → ℚ) :
    ∀ (a : ℕ) (l : List ℚ),
      (List.zipWith f (List.range' a l.length) l).sum
        = ∑ i ∈ Finset.range l.length, f (a + i) (l.getD i 0) := by
  intro a l
  induction l generalizing a with
  | nil => simp
  | cons y t ih =>
    rw [List.length_cons, List.range'_succ, List.zipWith_cons_cons,
      List.sum_cons, Finset.sum_range_succ']
    simp only [List.getD_cons_succ, List.getD_cons_zero, Nat.add_zero]
    rw [ih (a + 1)]
    have : ∀ i, a + 1 + i = a + (i + 1) := by omega
    simp only [this]
    ring

theorem insertionSort_eq_multiset_sort (x : List ℚ) :
    List.insertionSort (· ≤ ·) x = Multiset.sort (· ≤ ·) (x : Multiset ℚ) := by
  refine List.eq_of_perm_of_sorted ?_ (List.sorted_insertionSort _ x)
    (Multiset.sort_sorted _ _)
  refine (List.perm_insertionSort _ x).trans ?_
  exact ((Multiset.coe_eq_coe).1 (Multiset.sort_eq (· ≤ ·) (x : Multiset ℚ))).symm

theorem gini_eq_giniSpec (x : List ℚ) : gini_coefficient x = giniSpec x := by
  unfold gini_coefficient giniSpec
  have hc : (x.length ≤ 1 ∨ x.sum = 0) ↔ (x.length < 2 ∨ x.sum = 0) := by
    constructor <;> (rintro (h | h) <;> [left; right] <;> first | omega | exact h)
  rw [if_congr hc rfl rfl]
  by_cases h : x.length < 2 ∨ x.sum = 0
  · simp [h]
  · simp only [h, if_false]
    have hsort := insertionSort_eq_multiset_sort x
    have hperm := List.perm_insertionSort (· ≤ · : ℚ → ℚ → Prop) x
    have hlen2 : (List.insertionSort (· ≤ ·) x).length = x.length := hperm.length_eq
    have hsum : (List.insertionSort (· ≤ ·) x).sum = x.sum := hperm.sum_eq
    rw [hsort] at hlen2 hsum
    rw [zipWith_range'_sum, hsort, hsum, hlen2]
    congr 1
    refine Finset.sum_congr rfl fun i _ => ?_
    push_cast
    ring

/-- C2: the Inequality Calculator returns 0 when the list has fewer than
2 elements or sums to 0, and otherwise returns
`Σ_i (2·rank_i − n − 1)·x_i / (n · Σ x_i)` over the ascending-sorted
values with 1-based ranks (stated as agreement with `giniSpec`, the
formula transcribed from the spec); on `[100, 300]` it returns
`0.25`. -/
theorem gini_matches_spec_formula :
    (∀ x : List ℚ, gini_coefficient x = giniSpec x)
      ∧ gini_coefficient [100, 300] = 1/4 := by
  refine ⟨gini_eq_giniSpec, ?_⟩
  norm_num [gini_coefficient, List.insertionSort, List.orderedInsert, List.range']

/-! ### Bounds of the Gini coefficient (C6) and permutation invariance (C10) -/

theorem gini_main (x : List ℚ) (h1 : ¬(x.length ≤ 1 ∨ x.sum = 0)) :
    gini_coefficient x =
      (∑ i ∈ Finset.range (List.insertionSort (· ≤ ·) x).length,
          (2 * (i : ℚ) + 1 - ((List.insertionSort (· ≤ ·) x).length : ℚ))
            * (List.insertionSort (· ≤ ·) x).getD i 0)
        / (((List.insertionSort (· ≤ ·) x).length : ℚ)
            * (List.insertionSort (· ≤ ·) x).sum) := by
  unfold gini_coefficient
  simp only [h1, if_false]
  rw [zipWith_range'_sum]
  congr 1
  refine Finset.sum_congr rfl fun i _ => ?_
  push_cast
  ring

theorem getD_mem_of_lt (s : List ℚ) {i : ℕ} (h : i < s.length) : s.getD i 0 ∈ s := by
  rw [List.getD_eq_get s 0 h]
  exact List.get_mem s i h

theorem sorted_getD_le (s : List ℚ) (hs : s.Sorted (· < ·)) {i j : ℕ}
    (hij : i ≤ j) (hj : j < s.length) : s.getD i 0 ≤ s.getD j 0 := by
  rcases Nat.eq_or_lt_of_le hij with rfl | hlt
  · exact le_refl _
  · have hi : i < s.length := lt_trans hlt hj
    rw [List.getD_eq_get s 0 hi, List.getD_eq_get s 0 hj]
    exact le_of_lt (hs.rel_get_of_lt hlt)

theorem sorted_getD_lt (s : List ℚ) (hs : s.Sorted (· < ·)) {i j : ℕ}
    (hij : i < j) (hj : j < s.length) : s.getD i 0 < s.getD j 0 := by
  have hi : i < s.length := lt_trans hij hj
  rw [List.getD_eq_get s 0 hi, List.getD_eq_get s 0 hj]
  exact hs.rel_get_of_lt hij

theorem list_sum_eq_sum_getD (l : List ℚ) :
    l.sum = ∑ i ∈ Finset.range l.length, l.getD i 0 := by
  induction l with
  | nil => simp
  | cons y t ih =>
    rw [List.sum_cons, List.length_cons, Finset.sum_range_succ']
    simp only [List.getD_cons_succ, List.getD_cons_zero]
    rw [ih]
    ring

theorem sum_odd_coeffs (n : ℕ) :
    ∑ i ∈ Finset.range n, (2 * (i : ℚ) + 1) = (n : ℚ) ^ 2 := by
  induction n with
  | zero => simp
  | succ m ih =>
    rw [Finset.sum_range_succ, ih]
    push_cast
    ring

theorem sum_centered_coeffs (n : ℕ) :
    ∑ i ∈ Finset.range n, (2 * (i : ℚ) + 1 - (n : ℚ)) = 0 := by
  have h := sum_odd_coeffs n
  rw [Finset.sum_sub_distrib, h, Finset.sum_const, Finset.card_range, nsmul_eq_mul]
  ring

theorem numerator_pos (s : List ℚ) (hs : s.Sorted (· < ·)) (h2 : 2 ≤ s.length) :
    0 < ∑ i ∈ Finset.range s.length,
        (2 * (i : ℚ) + 1 - (s.length : ℚ)) * s.getD i 0 := by
  set n := s.length with hn
  set f : ℕ → ℚ := fun i => (2 * (i : ℚ) + 1 - (n : ℚ)) * s.getD i 0 with hf
  have hcast : ∀ i < n, ((n - 1 - i : ℕ) : ℚ) = (n : ℚ) - 1 - (i : ℚ) := by
    intro i hi
    have h1 : i ≤ n - 1 := by omega
    have h2 : 1 ≤ n := by omega
    rw [Nat.cast_sub h1, Nat.cast_sub h2]
    push_cast
    ring
  have key : ∀ i < n, f i + f (n - 1 - i)
      = (2 * (i : ℚ) + 1 - (n : ℚ)) * (s.getD i 0 - s.getD (n - 1 - i) 0) := by
    intro i hi
    simp only [hf, hcast i hi]
    ring
  have hterm : ∀ i ∈ Finset.range n, 0 ≤ f i + f (n - 1 - i) := by
    intro i hi
    have hi' : i < n := Finset.mem_range.1 hi
    rw [key i hi']
    by_cases hc : n ≤ 2 * i + 1
    · have hji : n - 1 - i ≤ i := by omega
      have hx : s.getD (n - 1 - i) 0 ≤ s.getD i 0 := sorted_getD_le s hs hji hi'
      have hcq : (n : ℚ) ≤ 2 * (i : ℚ) + 1 := by exact_mod_cast hc
      have h1 : (0 : ℚ) ≤ 2 * (i : ℚ) + 1 - (n : ℚ) := by linarith
      exact mul_nonneg h1 (by linarith)
    · push_neg at hc
      have hij : i ≤ n - 1 - i := by omega
      have hjn : n - 1 - i < n := by omega
      have hx : s.getD i 0 ≤ s.getD (n - 1 - i) 0 := sorted_getD_le s hs hij hjn
      have hcq : 2 * (i : ℚ) + 1 < (n : ℚ) := by exact_mod_cast hc
      have h1 : 2 * (i : ℚ) + 1 - (n : ℚ) ≤ 0 := by linarith
      have h2' : s.getD i 0 - s.getD (n - 1 - i) 0 ≤ 0 := by linarith
      nlinarith [mul_nonneg (neg_nonneg.2 h1) (neg_nonneg.2 h2')]
  have hwit : ∃ i ∈ Finset.range n, 0 < f i + f (n - 1 - i) := by
    refine ⟨n - 1, Finset.mem_range.2 (by omega), ?_⟩
    have hlast : n - 1 < n := by omega
    rw [key (n - 1) hlast]
    have hz : n - 1 - (n - 1) = 0 := by omega
    rw [hz]
    have hx : s.getD 0 0 < s.getD (n - 1) 0 :=
      sorted_getD_lt s hs (by omega) hlast
    have hcq : (0 : ℚ) < 2 * ((n - 1 : ℕ) : ℚ) + 1 - (n : ℚ) := by
      rw [Nat.cast_sub (by omega : 1 ≤ n)]
      push_cast
      have : (2 : ℚ) ≤ (n : ℚ) := by exact_mod_cast h2
      linarith
    exact mul_pos hcq (by linarith)
  have hsum2 : (∑ i ∈ Finset.range n, f i) * 2
      = ∑ i ∈ Finset.range n, (f i + f (n - 1 - i)) := by
    rw [Finset.sum_add_distrib, Finset.sum_range_reflect f n]
    ring
  have hpos2 := Finset.sum_pos' hterm hwit
  rw [← hsum2] at hpos2
  linarith

theorem numerator_le (s : List ℚ) (hpos : ∀ v ∈ s, 0 ≤ v) :
    ∑ i ∈ Finset.range s.length,
        (2 * (i : ℚ) + 1 - (s.length : ℚ)) * s.getD i 0
      ≤ ((s.length : ℚ) - 1) * s.sum := by
  rw [list_sum_eq_sum_getD, Finset.mul_sum]
  refine Finset.sum_le_sum fun i hi => ?_
  have hi' : i < s.length := Finset.mem_range.1 hi
  have h0 : 0 ≤ s.getD i 0 := hpos _ (getD_mem_of_lt s hi')
  have hc : 2 * (i : ℚ) + 1 - (s.length : ℚ) ≤ (s.length : ℚ) - 1 := by
    have : (i : ℚ) + 1 ≤ (s.length : ℚ) := by exact_mod_cast hi'
    linarith
  exact mul_le_mul_of_nonneg_right hc h0

/-- C6: for every list of 2 or more pairwise-distinct positive values the
Gini coefficient lies strictly between 0 and 1, and for every list of 2
or more all-equal positive values it is exactly 0. -/
theorem gini_coefficient_bounds :
    (∀ x : List ℚ, 2 ≤ x.length → x.Nodup → (∀ v ∈ x, 0 < v) →
        0 < gini_coefficient x ∧ gini_coefficient x < 1)
      ∧ (∀ (x : List ℚ) (a : ℚ), 2 ≤ x.length → 0 < a → (∀ v ∈ x, v = a) →
        gini_coefficient x = 0) := by
  constructor
  · intro x hlen hnodup hpos
    have hne : x ≠ [] := by
      intro h
      rw [h] at hlen
      simp at hlen
    have hsum : 0 < x.sum := List.sum_pos x hpos hne
    have hguard : ¬(x.length ≤ 1 ∨ x.sum = 0) := by
      push_neg
      exact ⟨by omega, ne_of_gt hsum⟩
    have hperm := List.perm_insertionSort (· ≤ · : ℚ → ℚ → Prop) x
    have hslen : (List.insertionSort (· ≤ ·) x).length = x.length := hperm.length_eq
    have hssum : (List.insertionSort (· ≤ ·) x).sum = x.sum := hperm.sum_eq
    have hsorted : (List.insertionSort (· ≤ ·) x).Sorted (· < ·) :=
      List.Sorted.lt_of_le (List.sorted_insertionSort _ x) (hperm.nodup_iff.2 hnodup)
    have hspos : ∀ v ∈ List.insertionSort (· ≤ ·) x, 0 < v :=
      fun v hv => hpos v (hperm.subset hv)
    have hnum := numerator_pos (List.insertionSort (· ≤ ·) x) hsorted (by omega)
    have hup := numerator_le (List.insertionSort (· ≤ ·) x)
      (fun v hv => le_of_lt (hspos v hv))
    have hden : (0 : ℚ) < ((List.insertionSort (· ≤ ·) x).length : ℚ)
        * (List.insertionSort (· ≤ ·) x).sum := by
      rw [hslen, hssum]
      have : (0 : ℚ) < (x.length : ℚ) := by
        have : 0 < x.length := by omega
        exact_mod_cast this
      exact mul_pos this hsum
    rw [gini_main x hguard]
    constructor
    · exact div_pos hnum hden
    · rw [div_lt_one hden]
      have hlt : ((List.insertionSort (· ≤ ·) x).length - 1 : ℚ)
          * (List.insertionSort (· ≤ ·) x).sum
          < ((List.insertionSort (· ≤ ·) x).length : ℚ)
          * (List.insertionSort (· ≤ ·) x).sum := by
        rw [hssum]
        nlinarith
      linarith
  · intro x a hlen ha hall
    have hrep : x = List.replicate x.length a := List.eq_replicate_length.2 hall
    have hsum : x.sum = x.length * a := by
      conv_lhs => rw [hrep]
      rw [List.sum_replicate, nsmul_eq_mul]
    have hsumpos : 0 < x.sum := by
      rw [hsum]
      have : (0 : ℚ) < (x.length : ℚ) := by
        have : 0 < x.length := by omega
        exact_mod_cast this
      exact mul_pos this ha
    have hguard : ¬(x.length ≤ 1 ∨ x.sum = 0) := by
      push_neg
      exact ⟨by omega, ne_of_gt hsumpos⟩
    rw [gini_main x hguard]
    have hperm := List.perm_insertionSort (· ≤ · : ℚ → ℚ → Prop) x
    have hsall : ∀ v ∈ List.insertionSort (· ≤ ·) x, v = a :=
      fun v hv => hall v (hperm.subset hv)
    have hnum : ∑ i ∈ Finset.range (List.insertionSort (· ≤ ·) x).length,
        (2 * (i : ℚ) + 1 - ((List.insertionSort (· ≤ ·) x).length : ℚ))
          * (List.insertionSort (· ≤ ·) x).getD i 0 = 0 := by
      have hcong : ∀ i ∈ Finset.range (List.insertionSort (· ≤ ·) x).length,
          (2 * (i : ℚ) + 1 - ((List.insertionSort (· ≤ ·) x).length : ℚ))
            * (List.insertionSort (· ≤ ·) x).getD i 0
          = (2 * (i : ℚ) + 1 - ((List.insertionSort (· ≤ ·) x).length : ℚ)) * a := by
        intro i hi
        have hi' : i < (List.insertionSort (· ≤ ·) x).length := Finset.mem_range.1 hi
        rw [hsall _ (getD_mem_of_lt _ hi')]
      rw [Finset.sum_congr rfl hcong, ← Finset.sum_mul, sum_centered_coeffs,
        zero_mul]
    rw [hnum, zero_div]

/-- C6 witness: concrete instances of both halves, on `[1, 3]` and
`[2, 2]`. -/
theorem gini_coefficient_bounds_witness :
    (0 < gini_coefficient [1, 3] ∧ gini_coefficient [1, 3] < 1)
      ∧ gini_coefficient [2, 2] = 0 := by
  constructor
  · refine gini_coefficient_bounds.1 [1, 3] (by norm_num) ?_ ?_
    · norm_num [List.nodup_cons]
    · intro v hv
      rcases List.mem_cons.1 hv with rfl | hv
      · norm_num
      · rcases List.mem_singleton.1 hv with rfl
        norm_num
  · refine gini_coefficient_bounds.2 [2, 2] 2 (by norm_num) (by norm_num) ?_
    intro v hv
    rcases List.mem_cons.1 hv with rfl | hv
    · rfl
    · exact List.mem_singleton.1 hv

/-- C10: the Inequality Calculator is invariant under permutation of its
input list (it sorts first, and its guards depend only on length and
sum). -/
theorem gini_coefficient_perm_invariant {l₁ l₂ : List ℚ} (h : l₁.Perm l₂) :
    gini_coefficient l₁ = gini_coefficient l₂ := by
  unfold gini_coefficient
  have hsort : List.insertionSort (· ≤ ·) l₁ = List.insertionSort (· ≤ ·) l₂ :=
    List.eq_of_perm_of_sorted
      ((List.perm_insertionSort _ l₁).trans
        (h.trans (List.perm_insertionSort _ l₂).symm))
      (List.sorted_insertionSort _ l₁) (List.sorted_insertionSort _ l₂)
  rw [h.length_eq, h.sum_eq, hsort]

/-- C10 witness: `[300, 100]` is a permutation of `[100, 300]` and the
Gini coefficients agree. -/
theorem gini_coefficient_perm_invariant_witness :
    gini_coefficient [300, 100] = gini_coefficient [100, 300] :=
  gini_coefficient_perm_invariant (List.Perm.swap 100 300 [])

/-! ### Float values with IEEE special values

`pandas`/`numpy` float columns can hold `inf`, `-inf` and `NaN`; the
claims about zero boundary areas and about regions missing from a join
observe exactly these special values, so column values are modelled by
`FVal`: an exact finite rational, or one of the three special values.
(The finite arithmetic appearing in the claims is exact in binary64, so
`ℚ` for the finite part loses nothing the claims talk about.) -/

inductive FVal where
  | finite (q : ℚ)
  | inf
  | neginf
  | nan
deriving DecidableEq

/-- IEEE-754 division on `FVal` (as numpy performs it on float64
columns, with finite values exact and zero unsigned): division by zero
gives `±inf` by the sign of the numerator and `NaN` for `0/0`; any `NaN`
operand propagates; `±inf / finite` keeps the (sign-adjusted) infinity;
`finite / ±inf` is 0; `±inf / ±inf` is `NaN`. -/
def FVal.div : FVal → FVal → FVal
  | nan, _ => nan
  | _, nan => nan
  | finite a, finite b =>
      if b = 0 then (if a = 0 then nan else if 0 < a then inf else neginf)
      else finite (a / b)
  | finite _, inf => finite 0
  | finite _, neginf => finite 0
  | inf, finite b => if 0 ≤ b then inf else neginf
  | neginf, finite b => if 0 ≤ b then neginf else inf
  | inf, inf => nan
  | inf, neginf => nan
  | neginf, inf => nan
  | neginf, neginf => nan

/-- An `FVal` is finite exactly when it is a `finite` rational. -/
def FVal.isFinite : FVal → Bool
  | finite _ => true
  | _ => false

/-! ### Geometry as an external collaborator

The geometry library (shapely via GeoPandas) is not part of the
repository.  The pipeline only uses, per geometry: its planar area
(`geom.area`, after both datasets are projected to EPSG:5070 — the
reprojection is folded into the `area` value, as the spec's §1 assumes
planar inputs), and its decomposition into constituent polygons
(`geom.geoms` when the geometry is a `MultiPolygon`; the code tests this
with `geom_type == "MultiPolygon"` in one place and `hasattr(geom,
'geoms')` in the other — for the Polygon/MultiPolygon inputs of this
pipeline the two tests agree, so a single `multiParts` models both). -/

structure GeomOps (G : Type) where
  area : G → ℚ
  multiParts : G → Option (List G)

/-- A concrete test geometry for witnesses and counterexamples: a single
polygon carrying its area, or a multi-polygon carrying its parts. -/
inductive SimpleGeom where
  | poly (a : ℚ)
  | multi (parts : List ℚ)
deriving DecidableEq

def simpleOps : GeomOps SimpleGeom where
  area g := match g with
    | .poly a => a
    | .multi ps => ps.sum
  multiParts g := match g with
    | .poly _ => none
    | .multi ps => some (ps.map .poly)

/-! ### The merged feature table (`load_lot_data`, `add_geo_features`)

A row of the merged GeoDataFrame.  `load_lot_data` produces rows whose
derived-feature columns do not exist yet (`none`); `add_geo_features`
assigns them.  `boundary_area` is `FVal.nan` for a lot row with no
matching boundary row (pandas fills missing cells of a left join with
`NaN`). -/

structure Row (G : Type) where
  city : ℕ
  geometry : G
  total_lot_area : ℚ
  num_lots : ℕ
  boundary_area : FVal
  pct_lot_area : Option FVal
  lots_per_sq_km : Option FVal
  avg_lot_area : Option FVal
deriving DecidableEq

structure LotRow (G : Type) where
  id : ℕ
  geometry : G
deriving DecidableEq

structure BoundaryRow (G : Type) where
  id : ℕ
  geometry : G
deriving DecidableEq

/-- Source, `load_lot_data`:
```
lots["total_lot_area"] = lots.geometry.area
boundaries["boundary_area"] = boundaries.geometry.area
lots["num_lots"] = lots.geometry.apply(
    lambda x: len(x.geoms) if x.geom_type == "MultiPolygon" else 1)
lot_data = lots.merge(pd.DataFrame(boundaries.drop(columns='geometry')),
                      on='id', how='left')
lot_data.rename(columns={'id': 'city'}, inplace=True)
```
The left operand of the merge is the LOT table, so the output has one
row per lot row (per matching boundary row when `id` is duplicated);
lot rows without a boundary match get `NaN` in `boundary_area`; the
boundary geometry column is dropped before merging, so the geometry
column of the result is the lot geometry. -/
def numLots {G : Type} (ops : GeomOps G) (g : G) : ℕ :=
  match ops.multiParts g with
  | some ps => ps.length
  | none => 1

def mergedRow {G : Type} (ops : GeomOps G) (l : LotRow G) (ba : FVal) : Row G :=
  { city := l.id, geometry := l.geometry,
    total_lot_area := ops.area l.geometry,
    num_lots := numLots ops l.geometry, boundary_area := ba,
    pct_lot_area := none, lots_per_sq_km := none, avg_lot_area := none }

def rowsForLot {G : Type} (ops : GeomOps G)
    (boundaries : List (BoundaryRow G)) (l : LotRow G) : List (Row G) :=
  match boundaries.filter (fun b => b.id = l.id) with
  | [] => [mergedRow ops l FVal.nan]
  | bs => bs.map fun b => mergedRow ops l (FVal.finite (ops.area b.geometry))

def load_lot_data {G : Type} (ops : GeomOps G)
    (lots : List (LotRow G)) (boundaries : List (BoundaryRow G)) :
    List (Row G) :=
  lots.bind (rowsForLot ops boundaries)

/-- Source, the `avg_lot_area` column expression (before `/ 1000`):
`np.mean([poly.area for poly in geom.geoms]) if hasattr(geom, 'geoms')
else geom.area`.  `np.mean` of an empty list is `0/0 = NaN`. -/
def avgPartArea {G : Type} (ops : GeomOps G) (g : G) : FVal :=
  match ops.multiParts g with
  | some ps =>
      FVal.div (FVal.finite (ps.map ops.area).sum) (FVal.finite (ps.length : ℚ))
  | none => FVal.finite (ops.area g)

/-- Source, `add_geo_features`:
```
lot_data["pct_lot_area"] = lot_data["total_lot_area"] / lot_data["boundary_area"]
lot_data["lots_per_sq_km"] = 1000 * lot_data["num_lots"] / lot_data["boundary_area"]
lot_data["avg_lot_area"] = lot_data.geometry.apply(...) / 1000
return lot_data
```
Each column assignment updates the DataFrame object named by the
argument in place (pandas `__setitem__`), and the function returns that
same object; the per-row effect of the three assignments is this
function. -/
def add_geo_features {G : Type} (ops : GeomOps G) (r : Row G) : Row G :=
  { r with
    pct_lot_area := some (FVal.div (FVal.finite r.total_lot_area) r.boundary_area),
    lots_per_sq_km :=
      some (FVal.div (FVal.finite (1000 * (r.num_lots : ℚ))) r.boundary_area),
    avg_lot_area :=
      some (FVal.div (avgPartArea ops r.geometry) (FVal.finite 1000)) }

/-- Python call semantics of `add_geo_features(d)`: the column
assignments mutate the DataFrame object bound to `d` in place, so after
the call the caller's `d` holds the augmented frame — i.e. the value
`add_geo_features` returns.  This definition names the value of the
caller's variable after the call, for stating mutation/no-mutation
properties. -/
def callerFrameAfterCall {G : Type} (ops : GeomOps G) (r : Row G) : Row G :=
  add_geo_features ops r

/-! ### The join keyed on the lot dataset (C1, C4) -/

theorem mem_rowsForLot {G : Type} (ops : GeomOps G)
    (boundaries : List (BoundaryRow G)) (l : LotRow G) {r : Row G}
    (hr : r ∈ rowsForLot ops boundaries l) : ∃ ba, r = mergedRow ops l ba := by
  unfold rowsForLot at hr
  split at hr
  · exact ⟨FVal.nan, List.mem_singleton.1 hr⟩
  · rcases List.mem_map.1 hr with ⟨b, _, rfl⟩
    exact ⟨_, rfl⟩

theorem rowsForLot_ne_nil {G : Type} (ops : GeomOps G)
    (boundaries : List (BoundaryRow G)) (l : LotRow G) :
    rowsForLot ops boundaries l ≠ [] := by
  unfold rowsForLot
  split
  · simp
  · rename_i bs hne
    intro hmap
    exact hne (List.map_eq_nil.1 hmap)

theorem rowsForLot_no_match {G : Type} (ops : GeomOps G)
    (boundaries : List (BoundaryRow G)) (l : LotRow G)
    (h : l.id ∉ boundaries.map BoundaryRow.id) :
    rowsForLot ops boundaries l = [mergedRow ops l FVal.nan] := by
  unfold rowsForLot
  have hfilt : boundaries.filter (fun b => b.id = l.id) = [] := by
    rw [List.filter_eq_nil]
    intro b hb
    simp only [decide_eq_true_eq]
    intro heq
    exact h (List.mem_map.2 ⟨b, hb, heq⟩)
  rw [hfilt]

/-- C1 counterexample: with an empty lot dataset and one boundary row
for region 5, the output of `load_lot_data` is empty: the boundary-only
region is dropped, no record with null lot-derived fields exists. -/
theorem boundary_only_region_dropped :
    ¬ ∃ r ∈ load_lot_data simpleOps ([] : List (LotRow SimpleGeom))
        [⟨5, SimpleGeom.poly 1⟩], r.city = 5 := by
  simp [load_lot_data]

/-- C1 corrected: the merge in `load_lot_data` is a left join keyed on
the LOT dataset, not the boundary dataset.  Every output key comes from
the lot dataset (so boundary-only regions are dropped); every lot region
yields at least one output record; and a lot region with no matching
boundary yields a record whose boundary-derived field is `NaN` rather
than being dropped. -/
theorem load_lot_data_left_join_on_lots {G : Type} (ops : GeomOps G)
    (lots : List (LotRow G)) (boundaries : List (BoundaryRow G)) :
    (∀ r ∈ load_lot_data ops lots boundaries, r.city ∈ lots.map LotRow.id)
      ∧ (∀ l ∈ lots, ∃ r ∈ load_lot_data ops lots boundaries, r.city = l.id)
      ∧ (∀ l ∈ lots, l.id ∉ boundaries.map BoundaryRow.id →
          ∃ r ∈ load_lot_data ops lots boundaries,
            r.city = l.id ∧ r.boundary_area = FVal.nan) := by
  refine ⟨?_, ?_, ?_⟩
  · intro r hr
    rcases List.mem_bind.1 hr with ⟨l, hl, hrl⟩
    rcases mem_rowsForLot ops boundaries l hrl with ⟨ba, rfl⟩
    exact List.mem_map.2 ⟨l, hl, rfl⟩
  · intro l hl
    rcases List.exists_mem_of_ne_nil _ (rowsForLot_ne_nil ops boundaries l)
      with ⟨r, hr⟩
    rcases mem_rowsForLot ops boundaries l hr with ⟨ba, rfl⟩
    exact ⟨mergedRow ops l ba, List.mem_bind.2 ⟨l, hl, hr⟩, rfl⟩
  · intro l hl hno
    refine ⟨mergedRow ops l FVal.nan, List.mem_bind.2 ⟨l, hl, ?_⟩, rfl, rfl⟩
    rw [rowsForLot_no_match ops boundaries l hno]
    exact List.mem_singleton.2 rfl

/-- C1 witness: one lot region (key 3) and an empty boundary dataset —
the output has a record for region 3 with `NaN` boundary area. -/
theorem load_lot_data_left_join_on_lots_witness :
    ∃ r ∈ load_lot_data simpleOps [⟨3, SimpleGeom.poly 2⟩]
        ([] : List (BoundaryRow SimpleGeom)),
      r.city = 3 ∧ r.boundary_area = FVal.nan :=
  (load_lot_data_left_join_on_lots simpleOps [⟨3, SimpleGeom.poly 2⟩] []).2.2
    ⟨3, SimpleGeom.poly 2⟩ (List.mem_singleton.2 rfl) (by simp)

/-- C4 counterexample: lot region 1 has lot geometry `poly 3` and
boundary polygon `poly 7`; the geometry carried on the output record is
the lot geometry `poly 3`, not the boundary polygon `poly 7`. -/
theorem carried_geometry_not_boundary_polygon :
    ¬ ∀ r ∈ load_lot_data simpleOps [⟨1, SimpleGeom.poly 3⟩]
        [⟨1, SimpleGeom.poly 7⟩], r.geometry = SimpleGeom.poly 7 := by
  intro h
  have hload : load_lot_data simpleOps [⟨1, SimpleGeom.poly 3⟩]
      [⟨1, SimpleGeom.poly 7⟩]
      = [mergedRow simpleOps ⟨1, SimpleGeom.poly 3⟩ (FVal.finite 7)] := rfl
  have h1 := h (mergedRow simpleOps ⟨1, SimpleGeom.poly 3⟩ (FVal.finite 7))
    (by rw [hload]; exact List.mem_singleton.2 rfl)
  simp only [mergedRow] at h1
  have : (3 : ℚ) = 7 := by injection h1
  norm_num at this

/-- C4 corrected: the geometry attribute carried on each record of the
Feature Table Builder's output is the region's LOT geometry (the
boundary geometry column is dropped before the merge). -/
theorem load_lot_data_geometry_from_lots {G : Type} (ops : GeomOps G)
    (lots : List (LotRow G)) (boundaries : List (BoundaryRow G)) :
    ∀ r ∈ load_lot_data ops lots boundaries,
      ∃ l ∈ lots, r.city = l.id ∧ r.geometry = l.geometry := by
  intro r hr
  rcases List.mem_bind.1 hr with ⟨l, hl, hrl⟩
  rcases mem_rowsForLot ops boundaries l hrl with ⟨ba, rfl⟩
  exact ⟨l, hl, rfl, rfl⟩

/-- C4 witness: on the concrete datasets of the counterexample, the
carried geometry is the lot geometry. -/
theorem load_lot_data_geometry_from_lots_witness :
    ∃ l ∈ [(⟨1, SimpleGeom.poly 3⟩ : LotRow SimpleGeom)],
      (mergedRow simpleOps ⟨1, SimpleGeom.poly 3⟩ (FVal.finite 7)).city = l.id
        ∧ (mergedRow simpleOps ⟨1, SimpleGeom.poly 3⟩ (FVal.finite 7)).geometry
            = l.geometry :=
  load_lot_data_geometry_from_lots simpleOps [⟨1, SimpleGeom.poly 3⟩]
    [⟨1, SimpleGeom.poly 7⟩]
    (mergedRow simpleOps ⟨1, SimpleGeom.poly 3⟩ (FVal.finite 7))
    (List.mem_singleton.2 rfl)

/-! ### Geometric features (C3, C5, C9) -/

/-- The reference scenario of the spec (§8): boundary area 1,000,000,
one multi-lot region with constituent areas 100 and 300, hence total lot
area 400 and 2 lots. -/
def scenarioRow : Row SimpleGeom :=
  { city := 1, geometry := SimpleGeom.multi [100, 300], total_lot_area := 400,
    num_lots := 2, boundary_area := FVal.finite 1000000,
    pct_lot_area := none, lots_per_sq_km := none, avg_lot_area := none }

/-- C3: `add_geo_features` sets
`pct_lot_area = total_lot_area / boundary_area`,
`lots_per_sq_km = 1000 · num_lots / boundary_area`, and
`avg_lot_area = (mean constituent-polygon area) / 1000`; on the
reference scenario these are 0.0004, 0.002 and 0.2. -/
theorem add_geo_features_formulas :
    (∀ (G : Type) (ops : GeomOps G) (r : Row G),
        (add_geo_features ops r).pct_lot_area
            = some (FVal.div (FVal.finite r.total_lot_area) r.boundary_area)
          ∧ (add_geo_features ops r).lots_per_sq_km
            = some (FVal.div (FVal.finite (1000 * (r.num_lots : ℚ)))
                r.boundary_area)
          ∧ (add_geo_features ops r).avg_lot_area
            = some (FVal.div (avgPartArea ops r.geometry) (FVal.finite 1000)))
      ∧ (add_geo_features simpleOps scenarioRow).pct_lot_area
          = some (FVal.finite 0.0004)
      ∧ (add_geo_features simpleOps scenarioRow).lots_per_sq_km
          = some (FVal.finite 0.002)
      ∧ (add_geo_features simpleOps scenarioRow).avg_lot_area
          = some (FVal.finite 0.2) := by
  refine ⟨fun G ops r => ⟨rfl, rfl, rfl⟩, ?_, ?_, ?_⟩
  · norm_num [add_geo_features, scenarioRow, FVal.div]
  · norm_num [add_geo_features, scenarioRow, FVal.div]
  · norm_num [add_geo_features, scenarioRow, avgPartArea, simpleOps, FVal.div]

/-- C5 counterexample: the spec says `add_geo_features` does not mutate
the record/dataset passed to it, but the pandas column assignments
update the argument in place, so after the call the caller's dataset
(`callerFrameAfterCall`) differs from the dataset passed in. -/
theorem add_geo_features_mutates_argument :
    callerFrameAfterCall simpleOps scenarioRow ≠ scenarioRow := by
  intro h
  have h1 := congrArg Row.pct_lot_area h
  simp [callerFrameAfterCall, add_geo_features, scenarioRow] at h1

/-- C5 corrected: `add_geo_features` is deterministic — its output is a
function of the record alone, and it preserves every pre-existing
column — but it is not mutation-free: the derived columns are assigned
on the dataset passed in, so the caller's dataset after the call equals
the returned augmented dataset and differs from the original whenever
the derived columns were absent. -/
theorem add_geo_features_deterministic_but_in_place {G : Type}
    (ops : GeomOps G) (r : Row G) :
    callerFrameAfterCall ops r = add_geo_features ops r
      ∧ (add_geo_features ops r).city = r.city
      ∧ (add_geo_features ops r).geometry = r.geometry
      ∧ (add_geo_features ops r).total_lot_area = r.total_lot_area
      ∧ (add_geo_features ops r).num_lots = r.num_lots
      ∧ (add_geo_features ops r).boundary_area = r.boundary_area
      ∧ (r.pct_lot_area = none → callerFrameAfterCall ops r ≠ r) := by
  refine ⟨rfl, rfl, rfl, rfl, rfl, rfl, ?_⟩
  intro hnone h
  have h1 := congrArg Row.pct_lot_area h
  simp only [callerFrameAfterCall, add_geo_features, hnone] at h1
  exact Option.noConfusion h1

/-- C5 witness: the in-place mutation observed on the reference
scenario row (whose derived columns are absent). -/
theorem add_geo_features_deterministic_but_in_place_witness :
    callerFrameAfterCall simpleOps scenarioRow
        = add_geo_features simpleOps scenarioRow
      ∧ callerFrameAfterCall simpleOps scenarioRow ≠ scenarioRow :=
  ⟨(add_geo_features_deterministic_but_in_place simpleOps scenarioRow).1,
   (add_geo_features_deterministic_but_in_place simpleOps scenarioRow).2.2.2.2.2.2
     rfl⟩

theorem fdiv_zero_nonfinite (a : ℚ) :
    (FVal.div (FVal.finite a) (FVal.finite 0)).isFinite = false := by
  simp only [FVal.div, if_pos rfl]
  split_ifs <;> rfl

/-- C9: when `boundary_area` is 0, the derived ratios `pct_lot_area` and
`lots_per_sq_km` are non-finite (inf, −inf or NaN, by IEEE division by
zero) and are stored as such in the output record — not clamped or
coerced to 0. -/
theorem add_geo_features_zero_boundary_nonfinite {G : Type}
    (ops : GeomOps G) (r : Row G) (h : r.boundary_area = FVal.finite 0) :
    ∃ v w, (add_geo_features ops r).pct_lot_area = some v
      ∧ v.isFinite = false
      ∧ (add_geo_features ops r).lots_per_sq_km = some w
      ∧ w.isFinite = false := by
  simp only [add_geo_features, h]
  exact ⟨_, _, rfl, fdiv_zero_nonfinite _, rfl, fdiv_zero_nonfinite _⟩

/-- The reference scenario with a degenerate zero-area boundary. -/
def zeroBoundaryRow : Row SimpleGeom :=
  { scenarioRow with boundary_area := FVal.finite 0 }

/-- C9 witness: the zero-boundary record concretely yields non-finite
derived ratios. -/
theorem add_geo_features_zero_boundary_nonfinite_witness :
    ∃ v w, (add_geo_features simpleOps zeroBoundaryRow).pct_lot_area = some v
      ∧ v.isFinite = false
      ∧ (add_geo_features simpleOps zeroBoundaryRow).lots_per_sq_km = some w
      ∧ w.isFinite = false :=
  add_geo_features_zero_boundary_nonfinite simpleOps zeroBoundaryRow rfl

/-! ### Orientation of the minimum rotated rectangle (`get_orientation`, C8)

Source:
```
mbr = poly.minimum_rotated_rectangle
x, y = mbr.exterior.coords.xy
edge_angle = np.arctan2(y[1] - y[0], x[1] - x[0])
angle = np.degrees(edge_angle) % 90
```
`minimum_rotated_rectangle` is shapely library code, outside the
repository; it is modelled as a parameter producing the rectangle's
closed exterior coordinate ring.  `np.arctan2(y, x)` is the argument of
the complex number `x + y·i` in `(−π, π]`; `np.degrees` multiplies by
`180/π`; Python float `%` by the positive modulus 90 returns
`a − 90·⌊a/90⌋ ∈ [0, 90)`. -/

def rot90 (p : ℝ × ℝ) : ℝ × ℝ := (-p.2, p.1)

def scale (c : ℝ) (v : ℝ × ℝ) : ℝ × ℝ := (c * v.1, c * v.2)

noncomputable def arctan2 (y x : ℝ) : ℝ := Complex.arg ⟨x, y⟩

noncomputable def degrees (r : ℝ) : ℝ := r * (180 / Real.pi)

noncomputable def pymod90 (a : ℝ) : ℝ := a - 90 * ⌊a / 90⌋

/-- A shapely polygon exterior ring is closed: the first coordinate is
repeated at the end. -/
def closeRing (l : List (ℝ × ℝ)) : List (ℝ × ℝ) := l ++ l.take 1

noncomputable def firstEdgeAngle (coords : List (ℝ × ℝ)) : ℝ :=
  let p0 := coords.getD 0 (0, 0)
  let p1 := coords.getD 1 (0, 0)
  pymod90 (degrees (arctan2 (p1.2 - p0.2) (p1.1 - p0.1)))

noncomputable def get_orientation (mbr : List (ℝ × ℝ) → List (ℝ × ℝ))
    (poly : List (ℝ × ℝ)) : ℝ :=
  firstEdgeAngle (mbr poly)

noncomputable def vecAngle (v : ℝ × ℝ) : ℝ := degrees (arctan2 v.2 v.1)

theorem pymod90_add_int (a : ℝ) (k : ℤ) :
    pymod90 (a + 90 * (k : ℝ)) = pymod90 a := by
  unfold pymod90
  have h : (a + 90 * (k : ℝ)) / 90 = a / 90 + (k : ℝ) := by ring
  rw [h, Int.floor_add_int]
  push_cast
  ring

theorem firstEdgeAngle_closeRing (a b c d : ℝ × ℝ) :
    firstEdgeAngle (closeRing [a, b, c, d]) = pymod90 (vecAngle (b - a)) := by
  simp [firstEdgeAngle, closeRing, vecAngle, Prod.fst_sub, Prod.snd_sub]

theorem cplx_ne_zero {v : ℝ × ℝ} (hv : v ≠ (0, 0)) : (⟨v.1, v.2⟩ : ℂ) ≠ 0 := by
  intro h
  apply hv
  have h1 := congrArg Complex.re h
  have h2 := congrArg Complex.im h
  simp at h1 h2
  exact Prod.ext h1 h2

theorem cplx_rot90 (v : ℝ × ℝ) :
    (⟨(rot90 v).1, (rot90 v).2⟩ : ℂ) = Complex.I * ⟨v.1, v.2⟩ := by
  apply Complex.ext <;> simp [rot90]

theorem vecAngle_rot90 (v : ℝ × ℝ) (hv : v ≠ (0, 0)) :
    pymod90 (vecAngle (rot90 v)) = pymod90 (vecAngle v) := by
  have hz : (⟨v.1, v.2⟩ : ℂ) ≠ 0 := cplx_ne_zero hv
  have h1 : (Complex.arg (Complex.I * ⟨v.1, v.2⟩) : Real.Angle)
      = ((Real.pi / 2 + Complex.arg ⟨v.1, v.2⟩ : ℝ) : Real.Angle) := by
    rw [Complex.arg_mul_coe_angle Complex.I_ne_zero hz, Complex.arg_I,
      Real.Angle.coe_add]
  rcases Real.Angle.angle_eq_iff_two_pi_dvd_sub.1 h1 with ⟨k, hk⟩
  have hπ : Real.pi ≠ 0 := Real.pi_ne_zero
  have hval : vecAngle (rot90 v) = vecAngle v + 90 * ((1 + 4 * k : ℤ) : ℝ) := by
    unfold vecAngle arctan2 degrees
    rw [cplx_rot90 v]
    have harg : Complex.arg (Complex.I * ⟨v.1, v.2⟩)
        = Real.pi / 2 + Complex.arg ⟨v.1, v.2⟩ + 2 * Real.pi * k := by
      linarith
    rw [harg]
    push_cast
    field_simp
    ring
  rw [hval]
  exact pymod90_add_int _ _

theorem cplx_scale (c : ℝ) (v : ℝ × ℝ) :
    (⟨(scale c v).1, (scale c v).2⟩ : ℂ) = (c : ℂ) * ⟨v.1, v.2⟩ := by
  apply Complex.ext <;> simp [scale]

theorem vecAngle_scale (v : ℝ × ℝ) (hv : v ≠ (0, 0)) (c : ℝ) (hc : c ≠ 0) :
    pymod90 (vecAngle (scale c v)) = pymod90 (vecAngle v) := by
  have hz : (⟨v.1, v.2⟩ : ℂ) ≠ 0 := cplx_ne_zero hv
  rcases lt_or_gt_of_ne hc with hneg | hpos
  · have hargneg : (Complex.arg ((c : ℂ) * ⟨v.1, v.2⟩) : Real.Angle)
        = ((Complex.arg ⟨v.1, v.2⟩ + Real.pi : ℝ) : Real.Angle) := by
      have hcv : (c : ℂ) * ⟨v.1, v.2⟩ = -(((-c : ℝ) : ℂ) * ⟨v.1, v.2⟩) := by
        push_cast
        ring
      rw [hcv, Complex.arg_neg_coe_angle, Complex.arg_real_mul _ (by linarith),
        Real.Angle.coe_add]
      exact mul_ne_zero (by
        simp only [ne_eq, Complex.ofReal_eq_zero]
        linarith) hz
    rcases Real.Angle.angle_eq_iff_two_pi_dvd_sub.1 hargneg with ⟨k, hk⟩
    have hval : vecAngle (scale c v) = vecAngle v + 90 * ((2 + 4 * k : ℤ) : ℝ) := by
      unfold vecAngle arctan2 degrees
      rw [cplx_scale c v]
      have harg : Complex.arg ((c : ℂ) * ⟨v.1, v.2⟩)
          = Complex.arg ⟨v.1, v.2⟩ + Real.pi + 2 * Real.pi * k := by
        linarith
      rw [harg]
      push_cast
      field_simp
      ring
    rw [hval]
    exact pymod90_add_int _ _
  · have : vecAngle (scale c v) = vecAngle v := by
      unfold vecAngle arctan2
      rw [cplx_scale c v, Complex.arg_real_mul _ hpos]
    rw [this]

theorem rot90_sub (a b : ℝ × ℝ) : rot90 a - rot90 b = rot90 (a - b) := by
  simp only [rot90, Prod.ext_iff, Prod.fst_sub, Prod.snd_sub]
  constructor <;> ring

theorem rot90_ne_zero {v : ℝ × ℝ} (hv : v ≠ (0, 0)) : rot90 v ≠ (0, 0) := by
  simp only [rot90, ne_eq, Prod.mk.injEq, neg_eq_zero, Prod.ext_iff] at hv ⊢
  tauto

theorem neg_eq_scale_neg_one (v : ℝ × ℝ) : -v = scale (-1) v := by
  simp only [scale, Prod.ext_iff, Prod.fst_neg, Prod.snd_neg]
  constructor <;> ring

theorem rot90_scale (c : ℝ) (v : ℝ × ℝ) : rot90 (scale c v) = scale c (rot90 v) := by
  simp only [rot90, scale, Prod.ext_iff]
  constructor <;> ring

/-- Any edge direction of the 90°-rotated rectangle (its two edge
directions are `rot90 e` and `rot90 (s · rot90 e)`, in either sign) has
the same `degrees ∘ arctan2` value modulo 90 as the original first edge
`e`. -/
theorem angle_of_rect_edge (e : ℝ × ℝ) (he : e ≠ (0, 0)) (s : ℝ) (hs : s ≠ 0)
    (w : ℝ × ℝ)
    (hw : w = rot90 e ∨ w = rot90 (scale s (rot90 e))
        ∨ w = -(rot90 e) ∨ w = -(rot90 (scale s (rot90 e)))) :
    pymod90 (vecAngle w) = pymod90 (vecAngle e) := by
  have hfe : rot90 (scale s (rot90 e)) = scale (-s) e := by
    simp only [rot90, scale, Prod.ext_iff]
    constructor <;> ring
  rcases hw with rfl | rfl | rfl | rfl
  · exact vecAngle_rot90 e he
  · rw [hfe]
    exact vecAngle_scale e he (-s) (neg_ne_zero.2 hs)
  · rw [neg_eq_scale_neg_one]
    exact (vecAngle_scale (rot90 e) (rot90_ne_zero he) (-1) (by norm_num)).trans
      (vecAngle_rot90 e he)
  · rw [hfe, neg_eq_scale_neg_one]
    have h1 : scale (-1) (scale (-s) e) = scale s e := by
      simp only [scale, Prod.ext_iff]
      constructor <;> ring
    rw [h1]
    exact vecAngle_scale e he s hs

theorem rot90_neg (v : ℝ × ℝ) : rot90 (-v) = -(rot90 v) := by
  simp only [rot90, Prod.ext_iff, Prod.fst_neg, Prod.snd_neg]
  constructor <;> ring

/-- C8: the Orientation Estimator returns the same value for a simple
non-degenerate polygon and for that polygon rotated by exactly 90°.
`minimum_rotated_rectangle` is shapely code outside the repository;
modelled from the spec (§4.1, Glossary): it yields the minimum-area
enclosing rotated rectangle, whose exterior ring is the closed cycle of
its four corners (hypotheses `hmbr` and `he`/`hf`/`hg`: a non-degenerate
rectangle with first edge `q1 − q0` and perpendicular second edge), and
by uniqueness of that rectangle the ring produced for the rotated
polygon is the 90°-rotated ring, up to starting vertex and traversal
direction (hypothesis `hrot`).  Under these the reported angle is
unchanged. -/
theorem get_orientation_rot90_invariant
    (mbr : List (ℝ × ℝ) → List (ℝ × ℝ)) (poly : List (ℝ × ℝ))
    (q0 q1 q2 q3 : ℝ × ℝ) (s : ℝ) (k : ℕ)
    (hmbr : mbr poly = closeRing [q0, q1, q2, q3])
    (he : q1 - q0 ≠ (0, 0)) (hs : s ≠ 0)
    (hf : q2 - q1 = scale s (rot90 (q1 - q0)))
    (hg : q3 - q2 = -(q1 - q0))
    (hrot : mbr (poly.map rot90)
        = closeRing (([q0, q1, q2, q3].map rot90).rotate k)
      ∨ mbr (poly.map rot90)
        = closeRing ((([q0, q1, q2, q3].map rot90).reverse).rotate k)) :
    get_orientation mbr (poly.map rot90) = get_orientation mbr poly := by
  have hrhs : get_orientation mbr poly = pymod90 (vecAngle (q1 - q0)) := by
    rw [get_orientation, hmbr, firstEdgeAngle_closeRing]
  have hq30 : q3 - q0 = scale s (rot90 (q1 - q0)) := by
    have hsum : q3 - q0 = (q3 - q2) + (q2 - q1) + (q1 - q0) := by abel
    rw [hg, hf] at hsum
    rw [hsum]
    abel
  have hq03 : q0 - q3 = -(scale s (rot90 (q1 - q0))) := by
    rw [show q0 - q3 = -(q3 - q0) from by abel, hq30]
  have hq23 : q2 - q3 = q1 - q0 := by
    rw [show q2 - q3 = -(q3 - q2) from by abel, hg]
    abel
  have hq12 : q1 - q2 = -(scale s (rot90 (q1 - q0))) := by
    rw [show q1 - q2 = -(q2 - q1) from by abel, hf]
  have hq01 : q0 - q1 = -(q1 - q0) := by abel
  have hmap : [q0, q1, q2, q3].map rot90
      = [rot90 q0, rot90 q1, rot90 q2, rot90 q3] := rfl
  have hedge : ∀ a b : ℝ × ℝ, ∀ w : ℝ × ℝ, a - b = w →
      rot90 a - rot90 b = rot90 w := by
    intro a b w hab
    rw [rot90_sub, hab]
  rcases hrot with h | h <;>
    rw [hmap] at h <;>
    rw [← List.rotate_mod] at h <;>
    [skip; rw [List.length_reverse] at h] <;>
    simp only [List.length_cons, List.length_nil] at h
  · have hm : k % 4 < 4 := Nat.mod_lt _ (by norm_num)
    set m := k % 4 with hmdef
    interval_cases m
    · rw [List.rotate_zero] at h
      rw [get_orientation, h, firstEdgeAngle_closeRing, hrhs,
        hedge q1 q0 _ rfl]
      exact angle_of_rect_edge _ he s hs _ (Or.inl rfl)
    · rw [List.rotate_eq_drop_append_take (by norm_num)] at h
      rw [get_orientation, h]
      show firstEdgeAngle (closeRing [rot90 q1, rot90 q2, rot90 q3, rot90 q0])
          = _
      rw [firstEdgeAngle_closeRing, hrhs, hedge q2 q1 _ hf]
      exact angle_of_rect_edge _ he s hs _ (Or.inr (Or.inl rfl))
    · rw [List.rotate_eq_drop_append_take (by norm_num)] at h
      rw [get_orientation, h]
      show firstEdgeAngle (closeRing [rot90 q2, rot90 q3, rot90 q0, rot90 q1])
          = _
      rw [firstEdgeAngle_closeRing, hrhs, hedge q3 q2 _ hg, rot90_neg]
      exact angle_of_rect_edge _ he s hs _ (Or.inr (Or.inr (Or.inl rfl)))
    · rw [List.rotate_eq_drop_append_take (by norm_num)] at h
      rw [get_orientation, h]
      show firstEdgeAngle (closeRing [rot90 q3, rot90 q0, rot90 q1, rot90 q2])
          = _
      rw [firstEdgeAngle_closeRing, hrhs, hedge q0 q3 _ hq03, rot90_neg]
      exact angle_of_rect_edge _ he s hs _ (Or.inr (Or.inr (Or.inr rfl)))
  · have hm : k % 4 < 4 := Nat.mod_lt _ (by norm_num)
    set m := k % 4 with hmdef
    have hrev : ([rot90 q0, rot90 q1, rot90 q2, rot90 q3]).reverse
        = [rot90 q3, rot90 q2, rot90 q1, rot90 q0] := rfl
    rw [hrev] at h
    interval_cases m
    · rw [List.rotate_zero] at h
      rw [get_orientation, h, firstEdgeAngle_closeRing, hrhs,
        hedge q2 q3 _ hq23]
      exact angle_of_rect_edge _ he s hs _ (Or.inl rfl)
    · rw [List.rotate_eq_drop_append_take (by norm_num)] at h
      rw [get_orientation, h]
      show firstEdgeAngle (closeRing [rot90 q2, rot90 q1, rot90 q0, rot90 q3])
          = _
      rw [firstEdgeAngle_closeRing, hrhs, hedge q1 q2 _ hq12, rot90_neg]
      exact angle_of_rect_edge _ he s hs _ (Or.inr (Or.inr (Or.inr rfl)))
    · rw [List.rotate_eq_drop_append_take (by norm_num)] at h
      rw [get_orientation, h]
      show firstEdgeAngle (closeRing [rot90 q1, rot90 q0, rot90 q3, rot90 q2])
          = _
      rw [firstEdgeAngle_closeRing, hrhs, hedge q0 q1 _ hq01, rot90_neg]
      exact angle_of_rect_edge _ he s hs _ (Or.inr (Or.inr (Or.inl rfl)))
    · rw [List.rotate_eq_drop_append_take (by norm_num)] at h
      rw [get_orientation, h]
      show firstEdgeAngle (closeRing [rot90 q0, rot90 q3, rot90 q2, rot90 q1])
          = _
      rw [firstEdgeAngle_closeRing, hrhs, hedge q3 q0 _ hq30]
      exact angle_of_rect_edge _ he s hs _ (Or.inr (Or.inl rfl))

/-- A concrete minimum-rectangle model for witnesses: it always returns
the exterior ring of the axis-aligned square centred at the origin.
Rotating that square's vertex ring by 90° gives a cyclic shift of the
same ring, so the model satisfies the rotation-equivariance hypothesis
at the polygon `[(0, 0)]`, which is fixed by the rotation. -/
def centredSquareMbr : List (ℝ × ℝ) → List (ℝ × ℝ) :=
  fun _ => closeRing [(1, 1), (-1, 1), (-1, -1), (1, -1)]

/-- C8 witness: the invariance theorem applied at the concrete model and
polygon. -/
theorem get_orientation_rot90_invariant_witness :
    get_orientation centredSquareMbr ([((0 : ℝ), (0 : ℝ))].map rot90)
      = get_orientation centredSquareMbr [((0 : ℝ), (0 : ℝ))] := by
  refine get_orientation_rot90_invariant centredSquareMbr [(0, 0)]
    (1, 1) (-1, 1) (-1, -1) (1, -1) 1 3 rfl ?_ one_ne_zero ?_ ?_ (Or.inl ?_)
  · intro hcon
    rw [Prod.ext_iff] at hcon
    norm_num at hcon
  · simp only [scale, rot90, Prod.ext_iff]
    norm_num
  · simp only [Prod.ext_iff, Prod.fst_neg, Prod.snd_neg, Prod.fst_sub,
      Prod.snd_sub]
    norm_num
  · rw [List.rotate_eq_drop_append_take (by norm_num)]
    simp only [centredSquareMbr, List.map, rot90, closeRing]
    norm_num [Prod.ext_iff]

/-! ### Orientation entropy (`calculate_orientation_entropy`, C7)

Source:
```
if not geoms or len(geoms) <= 1:
    return 0.0
angles = [get_orientation(p) for p in geoms]
hist, _ = np.histogram(angles, bins=bins, range=(0, 90))
orientation_entropy = entropy(hist) / np.log(bins)
```
`np.histogram` over the fixed range (0, 90) with `bins` bins: bin `i`
is `[90i/bins, 90(i+1)/bins)`, the last bin also contains the right
edge 90, and values outside `[0, 90]` are not counted.
`scipy.stats.entropy(hist)` normalizes the counts to probabilities
`p_i = hist_i / Σ hist` and returns `−Σ p_i · log p_i` with
`0·log 0 = 0` (for the empty histogram scipy yields `NaN`; that case is
unreachable behind the `len(geoms) <= 1` guard because every
`get_orientation` value lies in `[0, 90)` and is counted). -/

open scoped Classical in
noncomputable def binIdx (bins : ℕ) (a : ℝ) : Option ℕ :=
  if 0 ≤ a ∧ a ≤ 90 then some (min (bins - 1) (⌊a * (bins : ℝ) / 90⌋).toNat)
  else none

open scoped Classical in
noncomputable def histogram (bins : ℕ) (angles : List ℝ) (i : ℕ) : ℕ :=
  (angles.filter (fun a => binIdx bins a = some i)).length

open scoped Classical in
noncomputable def entr (p : ℝ) : ℝ := if p = 0 then 0 else -(p * Real.log p)

noncomputable def shannonEntropy (bins : ℕ) (hist : ℕ → ℕ) : ℝ :=
  ∑ i ∈ Finset.range bins,
    entr ((hist i : ℝ) / (∑ j ∈ Finset.range bins, (hist j : ℝ)))

noncomputable def calculate_orientation_entropy
    (mbr : List (ℝ × ℝ) → List (ℝ × ℝ)) (bins : ℕ)
    (geoms : List (List (ℝ × ℝ))) : ℝ :=
  if geoms.length ≤ 1 then 0
  else
    shannonEntropy bins (histogram bins (geoms.map (get_orientation mbr)))
      / Real.log bins

theorem binIdx_lt {bins : ℕ} (hbins : 1 ≤ bins) {a : ℝ} {b : ℕ}
    (h : binIdx bins a = some b) : b < bins := by
  rw [binIdx] at h
  split_ifs at h with hc
  have hb := (Option.some.inj h).symm
  have hle : min (bins - 1) (⌊a * (bins : ℝ) / 90⌋).toNat ≤ bins - 1 :=
    min_le_left _ _
  omega

/-- C7: the Orientation Entropy Calculator returns 0.0 for every
collection with fewer than 2 polygons, and returns 0 for every
collection of 2 or more polygons whose orientation angles all fall in
the same histogram bin. -/
theorem orientation_entropy_zero_cases
    (mbr : List (ℝ × ℝ) → List (ℝ × ℝ)) (geoms : List (List (ℝ × ℝ))) :
    (geoms.length ≤ 1 → calculate_orientation_entropy mbr 36 geoms = 0)
      ∧ (2 ≤ geoms.length →
        (∃ b, ∀ g ∈ geoms, binIdx 36 (get_orientation mbr g) = some b) →
        calculate_orientation_entropy mbr 36 geoms = 0) := by
  constructor
  · intro h
    rw [calculate_orientation_entropy, if_pos h]
  · rintro hlen ⟨b, hb⟩
    rw [calculate_orientation_entropy, if_neg (by omega)]
    set angles := geoms.map (get_orientation mbr) with hangles
    have hmem : ∀ a ∈ angles, binIdx 36 a = some b := by
      intro a ha
      rcases List.mem_map.1 ha with ⟨g, hg, rfl⟩
      exact hb g hg
    have hne : geoms ≠ [] := by
      intro h0
      rw [h0] at hlen
      simp at hlen
    have hb36 : b < 36 := by
      obtain ⟨g, hg⟩ := List.exists_mem_of_ne_nil _ hne
      exact binIdx_lt (by norm_num) (hb g hg)
    have hist_b : histogram 36 angles b = angles.length := by
      rw [histogram]
      have hfull : angles.filter (fun a => binIdx 36 a = some b) = angles :=
        List.filter_eq_self.2 (fun a ha => by simp [hmem a ha])
      rw [hfull]
    have hist_ne : ∀ i, i ≠ b → histogram 36 angles i = 0 := by
      intro i hi
      rw [histogram]
      have hnil : angles.filter (fun a => binIdx 36 a = some i) = [] := by
        refine List.filter_eq_nil.2 fun a ha => ?_
        simp only [hmem a ha, Option.some.injEq, decide_eq_true_eq]
        exact fun hbi => hi hbi.symm
      rw [hnil]
      rfl
    have hsum : (∑ j ∈ Finset.range 36, (histogram 36 angles j : ℝ))
        = (angles.length : ℝ) := by
      rw [Finset.sum_eq_single b]
      · rw [hist_b]
      · intro j _ hj
        rw [hist_ne j hj]
        norm_num
      · intro hbnot
        exact absurd (Finset.mem_range.2 hb36) hbnot
    have hlen0 : (0 : ℝ) < (angles.length : ℝ) := by
      have : angles.length = geoms.length := List.length_map _ _
      rw [this]
      have : 0 < geoms.length := by omega
      exact_mod_cast this
    have hterm : ∀ i ∈ Finset.range 36,
        entr ((histogram 36 angles i : ℝ)
          / (∑ j ∈ Finset.range 36, (histogram 36 angles j : ℝ))) = 0 := by
      intro i _
      by_cases hib : i = b
      · subst hib
        rw [hist_b, hsum, div_self (ne_of_gt hlen0), entr,
          if_neg one_ne_zero, Real.log_one]
        ring
      · rw [hist_ne i hib]
        simp [entr]
    rw [shannonEntropy, Finset.sum_eq_zero hterm, zero_div]

theorem get_orientation_centredSquare (g : List (ℝ × ℝ)) :
    get_orientation centredSquareMbr g = 0 := by
  rw [get_orientation]
  show firstEdgeAngle
      (closeRing [((1:ℝ), (1:ℝ)), (-1, 1), (-1, -1), (1, -1)]) = 0
  rw [firstEdgeAngle_closeRing]
  have hv : (((-1 : ℝ), (1 : ℝ)) : ℝ × ℝ) - (1, 1) = (-2, 0) := by
    simp [Prod.ext_iff]
    norm_num
  rw [hv, vecAngle, arctan2]
  have hc : ((⟨(-2 : ℝ), (0 : ℝ)⟩ : ℂ)) = ((-2 : ℝ) : ℂ) := by
    apply Complex.ext <;> simp
  have h1 : (((-2:ℝ), (0:ℝ)) : ℝ × ℝ).2 = 0 := rfl
  have h2 : (((-2:ℝ), (0:ℝ)) : ℝ × ℝ).1 = -2 := rfl
  rw [h1, h2, hc, Complex.arg_ofReal_of_neg (by norm_num)]
  have hdeg : degrees Real.pi = 180 := by
    rw [degrees]
    field_simp
  rw [hdeg, pymod90]
  rw [show (180 : ℝ) / 90 = 2 by norm_num]
  rw [show ⌊(2 : ℝ)⌋ = 2 from by norm_num]
  norm_num

/-- C7 witness: two degenerate one-point polygons under the constant
square minimum-rectangle model — both orientations are 0, landing in bin
0, and the entropy is 0. -/
theorem orientation_entropy_zero_cases_witness :
    calculate_orientation_entropy centredSquareMbr 36
      [[((0 : ℝ), (0 : ℝ))], [((1 : ℝ), (0 : ℝ))]] = 0 := by
  refine (orientation_entropy_zero_cases centredSquareMbr
    [[((0 : ℝ), (0 : ℝ))], [((1 : ℝ), (0 : ℝ))]]).2 (by norm_num) ⟨0, ?_⟩
  intro g _
  rw [get_orientation_centredSquare, binIdx, if_pos (by norm_num)]
  norm_num

end LotEngineering
